import Mathlib

/-!
Shallow embedding of `get_predictions.py` (active-learning prediction
ordering).  Scores are modelled as rationals (`ℚ`); Python float division
by zero is modelled as an explicit `zeroDivisionError`; the unseeded
`random.random()` stream is an explicit input `ℕ → ℚ`.  Dict iteration
order is modelled as insertion order (association lists), the ordering
the spec assumes of the score maps and queue dictionaries.
-/

namespace GetPredictions


/-- A score map as iterated by the driver: label/confidence pairs in
iteration (insertion) order.  Mirrors the dict built by `run_graph`. -/
abbrev ScoreMap := List (String × ℚ)

/-- The four running variables of the single-pass top-2 extraction
(lines 197-200 of `get_predictions.py`). -/
structure Top2 where
  top_prediction : String
  top_confidence : ℚ
  second_prediction : String
  second_confidence : ℚ
deriving Repr, DecidableEq

/-- Initial state: `top_prediction = ""`, `top_confidence = 0.0`,
`second_prediction = ""`, `second_confidence = 0.0`. -/
def top2Init : Top2 := ⟨"", 0, "", 0⟩

/-- One iteration of the loop at lines 201-211: if the new confidence
beats the current top, demote the top to second only when the current
top strictly beats the current second, then promote; otherwise replace
the second when beaten. -/
def top2Step (st : Top2) (p : String × ℚ) : Top2 :=
  if p.2 > st.top_confidence then
    if st.top_confidence > st.second_confidence then
      { top_prediction := p.1, top_confidence := p.2,
        second_prediction := st.top_prediction,
        second_confidence := st.top_confidence }
    else
      { st with top_prediction := p.1, top_confidence := p.2 }
  else if p.2 > st.second_confidence then
    { st with second_prediction := p.1, second_confidence := p.2 }
  else st

/-- The whole single-pass top-2 extraction over a score map. -/
def extractTop2 (predictions : ScoreMap) : Top2 :=
  predictions.foldl top2Step top2Init

/-- The only runtime error the embedded fragment can raise. -/
inductive PyErr where
  | zeroDivisionError
deriving Repr, DecidableEq

/-- Python float division: raises `ZeroDivisionError` on a zero divisor
(line 214 computes `top_confidence / second_confidence` unconditionally). -/
def pyDiv (a b : ℚ) : Except PyErr ℚ :=
  if b = 0 then .error .zeroDivisionError else .ok (a / b)

/-- The `image_info` record appended to `all_predictions` (line 217). -/
structure ImageInfo where
  image : String
  top_prediction : String
  top_confidence : ℚ
  second_prediction : String
  second_confidence : ℚ
  ratio : ℚ
deriving Repr, DecidableEq

/-- The per-directory counters `count`, `tp`, `fn`, `fp`
(lines 182-185), reset to zero for every label directory. -/
structure Counters where
  count : ℕ
  tp : ℕ
  fn : ℕ
  fp : ℕ
deriving Repr, DecidableEq

def countersInit : Counters := ⟨0, 0, 0, 0⟩

/-- Lines 222-228: compare the top prediction with the directory label,
then bump `count`.  Note both `fn` and `fp` of the *current directory's*
counters are incremented on a mismatch. -/
def updateMetrics (top_prediction label : String) (c : Counters) : Counters :=
  if top_prediction = label then
    { c with tp := c.tp + 1, count := c.count + 1 }
  else
    { c with fn := c.fn + 1, fp := c.fp + 1, count := c.count + 1 }

/-- Lines 196-228 for one image: extract top-2, compute the ratio
(which raises on a zero second confidence), build the record, update
the counters. -/
def processImage (image : String) (predictions : ScoreMap) (label : String)
    (c : Counters) : Except PyErr (ImageInfo × Counters) := do
  let t := extractTop2 predictions
  let ratio ← pyDiv t.top_confidence t.second_confidence
  let info : ImageInfo :=
    ⟨image, t.top_prediction, t.top_confidence,
      t.second_prediction, t.second_confidence, ratio⟩
  .ok (info, updateMetrics t.top_prediction label c)

/-- `str.endswith(suffix)` on the character-list view of a string. -/
def strEndsWith (s suffix : String) : Bool := suffix.data.isSuffixOf s.data

/-- `get_image_prediction` (lines 123-136): files that are not
`.jpg`/`.jpeg` yield an empty prediction list; otherwise the external
oracle is consulted. -/
def get_image_prediction (oracle : String → ScoreMap) (image : String) :
    ScoreMap :=
  if strEndsWith image ".jpg" ∨ strEndsWith image ".jpeg" then oracle image
  else []

/-- Per-label f-score (lines 233-238): `0.0` when `tp = 0`, otherwise
`2·precision·recall/(precision+recall)`. -/
def fscoreOf (tp fp fn : ℕ) : ℚ :=
  if tp = 0 then 0
  else
    let precision : ℚ := (tp : ℚ) / ((tp : ℚ) + (fp : ℚ))
    let recall' : ℚ := (tp : ℚ) / ((tp : ℚ) + (fn : ℚ))
    (2 * precision * recall') / (precision + recall')

/-- The inner image loop of `main` (lines 187-230).  `random.random()`
is modelled as an explicit stream `rands : ℕ → ℚ` consumed one draw per
image at index `k`; an image is processed only when its draw is at most
`0.05` (the code skips when the draw is `> 0.05`).  Returns the final
counters, the records appended to `all_predictions`, and the next
stream index. -/
def imagesLoop (oracle : String → ScoreMap) (label : String) (rands : ℕ → ℚ) :
    List String → ℕ → Counters → List ImageInfo →
    Except PyErr (Counters × List ImageInfo × ℕ)
  | [], k, c, acc => .ok (c, acc, k)
  | image :: rest, k, c, acc =>
    if rands k > 1/20 then
      imagesLoop oracle label rands rest (k + 1) c acc
    else do
      let predictions := get_image_prediction oracle image
      let (info, c') ← processImage image predictions label c
      imagesLoop oracle label rands rest (k + 1) c' (acc ++ [info])

/-- The running accumulators of `main` (lines 161-167), together with
the per-label report data printed at lines 239-240.  `label_reports`
records, per directory, the label, the final counters and the f-score
the code computes from them. -/
structure RunState where
  microfscores : ℚ
  macrofscores : ℚ
  total_images : ℕ
  total_labels : ℕ
  all_predictions : List ImageInfo
  label_reports : List (String × Counters × ℚ)
deriving Repr, DecidableEq

def runStateInit : RunState :=
  { microfscores := 0, macrofscores := 0, total_images := 0,
    total_labels := 0, all_predictions := [], label_reports := [] }

/-- The outer directory loop of `main` (lines 174-243): each directory
is one ground-truth label; counters restart at zero, the image loop
runs, then the f-score is computed and folded into the micro/macro
accumulators.  `total_images` grows by the directory's `count` since
the two are incremented together per processed image. -/
def dirsLoop (oracle : String → ScoreMap) (rands : ℕ → ℚ) :
    List (String × List String) → ℕ → RunState → Except PyErr (RunState × ℕ)
  | [], k, st => .ok (st, k)
  | (label, images) :: rest, k, st => do
    let (c, infos, k') ← imagesLoop oracle label rands images k countersInit []
    let fscore := fscoreOf c.tp c.fp c.fn
    let st' : RunState :=
      { microfscores := st.microfscores + fscore * (c.count : ℚ),
        macrofscores := st.macrofscores + fscore,
        total_images := st.total_images + c.count,
        total_labels := st.total_labels + 1,
        all_predictions := st.all_predictions ++ infos,
        label_reports := st.label_reports ++ [(label, c, fscore)] }
    dirsLoop oracle rands rest k' st'

/-- Stable ascending insertion by `top_confidence`: an earlier record
is placed before any later record with an equal key, which is the
input/output behaviour of the stable `list.sort` at line 259. -/
def insertAsc (x : ImageInfo) : List ImageInfo → List ImageInfo
  | [] => [x]
  | y :: ys =>
    if x.top_confidence ≤ y.top_confidence then x :: y :: ys
    else y :: insertAsc x ys

/-- `all_predictions.sort(key=lambda x: x[2], reverse=False)` (line
259): stable sort ascending by `top_confidence`. -/
def sortAsc : List ImageInfo → List ImageInfo
  | [] => []
  | x :: xs => insertAsc x (sortAsc xs)

/-- Everything the run emits: the records in processing order, the
per-label reports, the overall micro/macro f-scores and the final
prioritized ordering of image identifiers (strategy 1, lines 258-261). -/
structure RunOutput where
  all_predictions : List ImageInfo
  label_reports : List (String × Counters × ℚ)
  microf : ℚ
  macrof : ℚ
  ordering : List String
deriving Repr, DecidableEq

/-- The whole of `main` after loading (lines 158-261): directory loop,
overall accuracies (lines 246-247, divisions that raise on an empty
corpus), then the active strategy-1 ordering. -/
def runPipeline (oracle : String → ScoreMap) (rands : ℕ → ℚ)
    (dirs : List (String × List String)) : Except PyErr RunOutput := do
  let (st, _) ← dirsLoop oracle rands dirs 0 runStateInit
  let microf ← pyDiv st.microfscores (st.total_images : ℚ)
  let macrof ← pyDiv st.macrofscores (st.total_labels : ℚ)
  .ok { all_predictions := st.all_predictions,
        label_reports := st.label_reports,
        microf := microf, macrof := macrof,
        ordering := (sortAsc st.all_predictions).map (fun r => r.image) }

/-- One `ordered_labels[top].append(item)` step on the association-list
model of an insertion-ordered dict of queues: a missing key is added at
the end, an existing key gets the value appended to its queue. -/
def updateQueue {α : Type} : List (String × List α) → String → α →
    List (String × List α)
  | [], k, v => [(k, [v])]
  | (l, q) :: rest, k, v =>
    if l = k then (l, q ++ [v]) :: rest
    else (l, q) :: updateQueue rest k v

/-- Partition a list into per-key queues, keys in first-seen order,
values in insertion order (lines 273-278). -/
def partitionByKey {α : Type} (key : α → String) (l : List α) :
    List (String × List α) :=
  l.foldl (fun qs x => updateQueue qs (key x) x) []

/-- What one pass of the interleaving `while` loop (lines 282-289)
emits: the head of each non-empty queue, in queue order (empty queues
are passed over). -/
def passOut {α : Type} : List (String × List α) → List α
  | [] => []
  | (_, []) :: rest => passOut rest
  | (_, x :: _) :: rest => x :: passOut rest

/-- The queues after one pass: every non-empty queue has had its head
popped. -/
def passRest {α : Type} : List (String × List α) → List (String × List α)
  | [] => []
  | (l, q) :: rest => (l, q.tail) :: passRest rest

/-- Number of queued values remaining. -/
def totalSize {α : Type} : List (String × List α) → ℕ
  | [] => 0
  | (_, q) :: rest => q.length + totalSize rest

/-- The interleaving `while keep_going` loop with explicit fuel; each
emitting pass removes at least one value, so `totalSize` fuel always
suffices. -/
def roundRobinGo {α : Type} : ℕ → List (String × List α) → List α
  | 0, _ => []
  | n + 1, qs =>
    if totalSize qs = 0 then []
    else passOut qs ++ roundRobinGo n (passRest qs)

/-- The interleaving loop run to completion. -/
def roundRobin {α : Type} (qs : List (String × List α)) : List α :=
  roundRobinGo (totalSize qs) qs

/-- Strategy 3 end to end, exactly as in the source: partition the
records by `top_prediction` storing the image identifiers, then
interleave. -/
def stratifiedOrder (preds : List ImageInfo) : List String :=
  roundRobin (preds.foldl
    (fun qs r => updateQueue qs r.top_prediction r.image) [])

def scores (l : List (String × ℚ)) : List ℚ := l.map (fun p => p.2)

/-- Invariant of the single-pass top-2 loop over the processed prefix
`seen`, valid when all scores are positive and pairwise distinct. -/
def Top2Good (seen : List (String × ℚ)) (st : Top2) : Prop :=
  (seen = [] → st = top2Init) ∧
  (seen ≠ [] →
    (st.top_prediction, st.top_confidence) ∈ seen ∧
    (∀ p ∈ seen, p.2 ≤ st.top_confidence) ∧
    (seen.length = 1 → st.second_prediction = "" ∧ st.second_confidence = 0) ∧
    (2 ≤ seen.length →
      (st.second_prediction, st.second_confidence) ∈ seen ∧
      st.second_confidence < st.top_confidence ∧
      ∀ p ∈ seen, p ≠ (st.top_prediction, st.top_confidence) →
        p.2 ≤ st.second_confidence))

def sumMicro (reports : List (String × Counters × ℚ)) : ℚ :=
  (reports.map (fun r => r.2.2 * (r.2.1.count : ℚ))).sum

def sumMacro (reports : List (String × Counters × ℚ)) : ℚ :=
  (reports.map (fun r => r.2.2)).sum

def sumCount (reports : List (String × Counters × ℚ)) : ℕ :=
  (reports.map (fun r => r.2.1.count)).sum

def SumInv (st : RunState) : Prop :=
  st.microfscores = sumMicro st.label_reports ∧
  st.macrofscores = sumMacro st.label_reports ∧
  st.total_images = sumCount st.label_reports ∧
  st.total_labels = st.label_reports.length

/-- Queues are well-formed for `key`: distinct dict keys, and every
queued value belongs to its queue's key. -/
def WFQueues {α : Type} (key : α → String) (qs : List (String × List α)) : Prop :=
  (qs.map (fun p => p.1)).Nodup ∧ ∀ p ∈ qs, ∀ x ∈ p.2, key x = p.1

/-- Keys of the queues that still hold values, in queue order. -/
def keysOfNonempty {α : Type} : List (String × List α) → List String
  | [] => []
  | (_, []) :: rest => keysOfNonempty rest
  | (l, _ :: _) :: rest => l :: keysOfNonempty rest

/-- No two consecutive equal labels unless the tail is constant: once a
label repeats immediately, everything that follows carries that label. -/
def noStut : List String → Prop
  | [] => True
  | [_] => True
  | a :: b :: t => (a = b → ∀ x ∈ b :: t, x = a) ∧ noStut (b :: t)

/-- All non-empty queues carry the key `a`. -/
def OnlyKey {α : Type} (a : String) (qs : List (String × List α)) : Prop :=
  ∀ p ∈ qs, p.2 ≠ [] → p.1 = a

/-- The queue contents, pointwise mapped. -/
def mapQueues {α β : Type} (g : α → β) (qs : List (String × List α)) :
    List (String × List β) :=
  qs.map (fun p => (p.1, p.2.map g))

/-- An oracle that always reports label `b` at 0.9 and `a` at 0.1. -/
def exOracle : String → ScoreMap := fun _ => [("b", 9/10), ("a", 1/10)]

/-- Two ground-truth directories: label `a` with one jpeg, label `b`
empty. -/
def exDirs : List (String × List String) := [("a", ["x.jpg"]), ("b", [])]

/-- A random stream that keeps every image (all draws below 0.05). -/
def randKeep : ℕ → ℚ := fun _ => 1/100

/-- A random stream that skips every image (all draws above 0.05). -/
def randSkip : ℕ → ℚ := fun _ => 1/2

/-- Records whose `top_prediction` sequence is A,A,B,A,B,C in insertion
order, as in the spec's round-robin test. -/
def exRecs : List ImageInfo :=
  [⟨"a1", "A", 0, "", 0, 0⟩, ⟨"a2", "A", 0, "", 0, 0⟩,
   ⟨"b1", "B", 0, "", 0, 0⟩, ⟨"a3", "A", 0, "", 0, 0⟩,
   ⟨"b2", "B", 0, "", 0, 0⟩, ⟨"c1", "C", 0, "", 0, 0⟩]

/-- The result of the successful concrete run `ex_run` below. -/
def exOut : RunOutput :=
  { all_predictions := [⟨"x.jpg", "b", 9/10, "a", 1/10, 9⟩],
    label_reports := [("a", ⟨1, 0, 1, 1⟩, 0), ("b", ⟨0, 0, 0, 0⟩, 0)],
    microf := 0, macrof := 0, ordering := ["x.jpg"] }

/-- The spec's synthetic 2-label corpus: 8 scored items at f = 0.8 and
2 scored items at f = 0.5. -/
def exReports : List (String × Counters × ℚ) :=
  [("a", ⟨8, 0, 0, 0⟩, 4/5), ("b", ⟨2, 0, 0, 0⟩, 1/2)]

/-- A two-entry score map with distinct positive scores. -/
def exPair : ScoreMap := [("a", 1/2), ("b", 7/10)]

/-! ## Helper lemmas -/

theorem except_bind_ok {α β : Type} (x : Except PyErr α) (f : α → Except PyErr β)
    (b : β) (h : (x >>= f) = .ok b) : ∃ a, x = .ok a ∧ f a = .ok b := by
  cases x with
  | error e => simp [Bind.bind, Except.bind] at h
  | ok a => exact ⟨a, rfl, by simpa [Bind.bind, Except.bind] using h⟩

theorem ex_gip : get_image_prediction exOracle "x.jpg" =
    [("b", 9/10), ("a", 1/10)] := by
  simp [get_image_prediction, exOracle, strEndsWith]

theorem ex_extract : extractTop2 [("b", 9/10), ("a", 1/10)] =
    ⟨"b", 9/10, "a", 1/10⟩ := by
  norm_num [extractTop2, top2Step, top2Init]

theorem ex_process : processImage "x.jpg" [("b", 9/10), ("a", 1/10)] "a"
    countersInit = .ok (⟨"x.jpg", "b", 9/10, "a", 1/10, 9⟩, ⟨1, 0, 1, 1⟩) := by
  rw [processImage, ex_extract]
  simp [pyDiv, updateMetrics, countersInit, Bind.bind, Except.bind]

theorem ex_imagesLoop : imagesLoop exOracle "a" randKeep ["x.jpg"] 0
    countersInit [] =
    .ok (⟨1, 0, 1, 1⟩, [⟨"x.jpg", "b", 9/10, "a", 1/10, 9⟩], 1) := by
  rw [imagesLoop]
  norm_num [randKeep]
  rw [ex_gip, ex_process]
  rfl

/-- The full successful run on `exDirs`: label `a` scores one mismatch
(`fn = fp = 1`), label `b` stays at zero. -/
theorem ex_run : runPipeline exOracle randKeep exDirs = .ok exOut := by
  rw [runPipeline, exDirs, dirsLoop, ex_imagesLoop]
  norm_num [exOut, fscoreOf, runStateInit, countersInit, Bind.bind, Except.bind,
    imagesLoop, dirsLoop, pyDiv, sortAsc, insertAsc]

/-- The same run with every image skipped by the random filter dies on
`microf = microfscores / total_images` with `total_images = 0`. -/
theorem ex_run_skip : runPipeline exOracle randSkip exDirs =
    .error .zeroDivisionError := by
  rw [runPipeline, exDirs, dirsLoop]
  norm_num [randSkip, imagesLoop, dirsLoop, fscoreOf, runStateInit,
    countersInit, Bind.bind, Except.bind, pyDiv]

theorem top2Step_mono (st : Top2) (p : String × ℚ)
    (h : st.second_confidence ≤ st.top_confidence) :
    (top2Step st p).second_confidence ≤ (top2Step st p).top_confidence := by
  unfold top2Step
  split_ifs with h1 h2 h3 <;> (try dsimp only) <;> linarith

theorem foldl_top2_mono (l : List (String × ℚ)) (st : Top2)
    (h : st.second_confidence ≤ st.top_confidence) :
    (l.foldl top2Step st).second_confidence ≤ (l.foldl top2Step st).top_confidence := by
  induction l generalizing st with
  | nil => exact h
  | cons p rest ih => exact ih _ (top2Step_mono st p h)

theorem processImage_counters (image : String) (p : ScoreMap) (label : String)
    (c : Counters) (info : ImageInfo) (c' : Counters)
    (h : processImage image p label c = .ok (info, c')) :
    c' = updateMetrics (extractTop2 p).top_prediction label c := by
  unfold processImage at h
  obtain ⟨r, hr, hok⟩ := except_bind_ok _ _ _ h
  simp at hok
  exact hok.2.symm

theorem imagesLoop_fn_fp (oracle : String → ScoreMap) (label : String)
    (rands : ℕ → ℚ) (images : List String) :
    ∀ k c acc c' out k', c.fn = c.fp →
    imagesLoop oracle label rands images k c acc = .ok (c', out, k') →
    c'.fn = c'.fp := by
  induction images with
  | nil =>
    intro k c acc c' out k' hc h
    rw [imagesLoop] at h
    simp at h
    rw [← h.1]; exact hc
  | cons img rest ih =>
    intro k c acc c' out k' hc h
    rw [imagesLoop] at h
    split at h
    · exact ih _ _ _ _ _ _ hc h
    · obtain ⟨⟨info, c₁⟩, hp, hrest⟩ := except_bind_ok _ _ _ h
      refine ih _ _ _ _ _ _ ?_ hrest
      rw [processImage_counters _ _ _ _ _ _ hp]
      unfold updateMetrics
      split_ifs <;> simp [hc]

theorem fscore_eq_precision (tp fp fn : ℕ) (hfp : fp = fn) (htp : 0 < tp) :
    (tp : ℚ) / ((tp : ℚ) + (fp : ℚ)) = (tp : ℚ) / ((tp : ℚ) + (fn : ℚ)) ∧
    fscoreOf tp fp fn = (tp : ℚ) / ((tp : ℚ) + (fp : ℚ)) := by
  subst hfp
  refine ⟨rfl, ?_⟩
  have htp' : tp ≠ 0 := by omega
  have hq : (0 : ℚ) < (tp : ℚ) := by exact_mod_cast htp
  have hden : (0 : ℚ) < (tp : ℚ) + (fp : ℚ) := by positivity
  have hp : (tp : ℚ) / ((tp : ℚ) + (fp : ℚ)) ≠ 0 := by positivity
  simp only [fscoreOf, htp', if_false]
  field_simp
  ring

theorem dirsLoop_sumInv (oracle : String → ScoreMap) (rands : ℕ → ℚ)
    (dirs : List (String × List String)) :
    ∀ k st st' k', SumInv st →
    dirsLoop oracle rands dirs k st = .ok (st', k') → SumInv st' := by
  induction dirs with
  | nil =>
    intro k st st' k' hst h
    rw [dirsLoop] at h
    simp at h
    rw [← h.1]; exact hst
  | cons d rest ih =>
    intro k st st' k' hst h
    obtain ⟨label, images⟩ := d
    rw [dirsLoop] at h
    obtain ⟨⟨c, infos, k₁⟩, hloop, hrest⟩ := except_bind_ok _ _ _ h
    refine ih _ _ _ _ ?_ hrest
    obtain ⟨h1, h2, h3, h4⟩ := hst
    refine ⟨?_, ?_, ?_, ?_⟩ <;>
      simp [sumMicro, sumMacro, sumCount, h1, h2, h3, h4]

theorem dirsLoop_report_keys (oracle : String → ScoreMap) (rands : ℕ → ℚ)
    (dirs : List (String × List String)) :
    ∀ k st st' k',
    dirsLoop oracle rands dirs k st = .ok (st', k') →
    st'.label_reports.map (fun r => r.1) =
      st.label_reports.map (fun r => r.1) ++ dirs.map (fun d => d.1) := by
  induction dirs with
  | nil =>
    intro k st st' k' h
    rw [dirsLoop] at h
    simp at h
    rw [← h.1]; simp
  | cons d rest ih =>
    intro k st st' k' h
    obtain ⟨label, images⟩ := d
    rw [dirsLoop] at h
    obtain ⟨⟨c, infos, k₁⟩, hloop, hrest⟩ := except_bind_ok _ _ _ h
    rw [ih _ _ _ _ hrest]
    simp

theorem runPipeline_metrics (oracle : String → ScoreMap) (rands : ℕ → ℚ)
    (dirs : List (String × List String)) (out : RunOutput)
    (h : runPipeline oracle rands dirs = .ok out) :
    out.microf = sumMicro out.label_reports / ((sumCount out.label_reports : ℕ) : ℚ) ∧
    out.macrof = sumMacro out.label_reports / ((out.label_reports.length : ℕ) : ℚ) := by
  unfold runPipeline at h
  obtain ⟨⟨st, k⟩, hd, h⟩ := except_bind_ok _ _ _ h
  obtain ⟨microf, hm, h⟩ := except_bind_ok _ _ _ h
  obtain ⟨macrof, hma, h⟩ := except_bind_ok _ _ _ h
  simp at h
  have hinv := dirsLoop_sumInv oracle rands dirs 0 runStateInit st k
    ⟨rfl, rfl, rfl, rfl⟩ hd
  obtain ⟨h1, h2, h3, h4⟩ := hinv
  unfold pyDiv at hm hma
  split at hm
  · exact absurd hm (by simp)
  · split at hma
    · exact absurd hma (by simp)
    · simp at hm hma
      rw [← h]
      simp only []
      constructor
      · rw [← hm, h1, h3]
      · rw [← hma, h2, h4]

theorem top2Step_good (seen : List (String × ℚ)) (st : Top2) (e : String × ℚ)
    (hpos : ∀ p ∈ seen, 0 < p.2) (hepos : 0 < e.2)
    (hnotin : e.2 ∉ scores seen)
    (hinv : Top2Good seen st) :
    Top2Good (seen ++ [e]) (top2Step st e) := by
  obtain ⟨l, s⟩ := e
  obtain ⟨tl, ts, sl, ss⟩ := st
  simp only at hepos
  rcases List.eq_nil_or_concat seen with hnil | _
  · -- empty prefix: state is the initial state
    subst hnil
    have hst : (⟨tl, ts, sl, ss⟩ : Top2) = top2Init := hinv.1 rfl
    rw [hst]
    simp only [top2Step, top2Init, gt_iff_lt, lt_self_iff_false, if_false]
    rw [if_pos hepos]
    refine ⟨by simp, fun _ => ?_⟩
    simp
  · -- nonempty prefix
    have hne : seen ≠ [] := by
      rename_i h; obtain ⟨l', a, rfl⟩ := h; simp
    obtain ⟨htop, hbound, hone, htwo⟩ := hinv.2 hne
    simp only at htop hbound hone htwo ⊢
    have hts_mem : ts ∈ scores seen := List.mem_map_of_mem _ htop
    have hsts : s ≠ ts := fun h => hnotin (h ▸ hts_mem)
    have hlen1 : 1 ≤ seen.length := List.length_pos.mpr hne
    rcases Nat.lt_or_ge seen.length 2 with hl1 | hl2
    · -- exactly one element seen
      have hlen : seen.length = 1 := by omega
      obtain ⟨q, rfl⟩ := List.length_eq_one.mp hlen
      have hq : (tl, ts) = q := by simpa using htop
      obtain ⟨hsl, hss⟩ := hone hlen
      subst hsl; subst hss
      have hts_pos : 0 < ts := by
        have := hpos (tl, ts) (by simp [hq])
        simpa using this
      rcases lt_or_gt_of_ne hsts with hlt | hgt
      · -- s < ts : keep top, s becomes second
        rw [top2Step]
        simp only [gt_iff_lt]
        rw [if_neg (by simpa using not_lt.mpr hlt.le), if_pos (by simpa using hepos)]
        refine ⟨by simp, fun _ => ⟨by simp [hq], ?_, ?_, fun _ => ⟨by simp, by simpa using hlt, ?_⟩⟩⟩
        · intro p hp
          rcases (List.mem_append.mp hp) with hp | hp
          · exact hbound p hp
          · simp at hp; subst hp; exact hlt.le
        · intro hcon; simp at hcon
        · intro p hp hpne
          rcases (List.mem_append.mp hp) with hp | hp
          · simp at hp; subst hp; exact absurd (hq.symm ▸ rfl) hpne
          · simp at hp; subst hp; exact le_rfl
      · -- s > ts : demote top (guard ts > 0 holds)
        rw [top2Step]
        simp only [gt_iff_lt]
        rw [if_pos (by simpa using hgt), if_pos (by simpa using hts_pos)]
        refine ⟨by simp, fun _ => ⟨by simp, ?_, ?_, fun _ => ⟨by simp [hq], by simpa using hgt, ?_⟩⟩⟩
        · intro p hp
          rcases (List.mem_append.mp hp) with hp | hp
          · have := hbound p hp; simp only; linarith
          · simp at hp; subst hp; simp
        · intro hcon; simp at hcon
        · intro p hp hpne
          rcases (List.mem_append.mp hp) with hp | hp
          · simpa using hbound p hp
          · simp at hp; subst hp; simp at hpne
    · -- at least two elements seen
      obtain ⟨hsec, hsslt, hsbound⟩ := htwo hl2
      have hss_mem : ss ∈ scores seen := List.mem_map_of_mem _ hsec
      have hsss : s ≠ ss := fun h => hnotin (h ▸ hss_mem)
      rcases lt_or_gt_of_ne hsts with hlt | hgt
      · rcases lt_or_gt_of_ne hsss with hlt2 | hgt2
        · -- s below both: state unchanged
          rw [top2Step]
          simp only [gt_iff_lt]
          rw [if_neg (by simpa using not_lt.mpr hlt.le),
            if_neg (by simpa using not_lt.mpr hlt2.le)]
          refine ⟨by simp, fun _ => ⟨by simp [htop], ?_, ?_, fun _ => ⟨by simp [hsec], hsslt, ?_⟩⟩⟩
          · intro p hp
            rcases (List.mem_append.mp hp) with hp | hp
            · exact hbound p hp
            · simp at hp; subst hp; exact hlt.le
          · intro hcon
            simp only [List.length_append, List.length_cons, List.length_nil] at hcon
            omega
          · intro p hp hpne
            rcases (List.mem_append.mp hp) with hp | hp
            · exact hsbound p hp hpne
            · simp at hp; subst hp; exact hlt2.le
        · -- ss < s < ts : s becomes second
          rw [top2Step]
          simp only [gt_iff_lt]
          rw [if_neg (by simpa using not_lt.mpr hlt.le), if_pos (by simpa using hgt2)]
          refine ⟨by simp, fun _ => ⟨by simp [htop], ?_, ?_, fun _ => ⟨by simp, by simpa using hlt, ?_⟩⟩⟩
          · intro p hp
            rcases (List.mem_append.mp hp) with hp | hp
            · exact hbound p hp
            · simp at hp; subst hp; exact hlt.le
          · intro hcon
            simp only [List.length_append, List.length_cons, List.length_nil] at hcon
            omega
          · intro p hp hpne
            rcases (List.mem_append.mp hp) with hp | hp
            · have := hsbound p hp hpne; simp only; linarith
            · simp at hp; subst hp; simp
      · -- s > ts : demote (guard ss < ts holds)
        rw [top2Step]
        simp only [gt_iff_lt]
        rw [if_pos (by simpa using hgt), if_pos (by simpa using hsslt)]
        refine ⟨by simp, fun _ => ⟨by simp, ?_, ?_, fun _ => ⟨by simp [htop], by simpa using hgt, ?_⟩⟩⟩
        · intro p hp
          rcases (List.mem_append.mp hp) with hp | hp
          · have := hbound p hp; simp only; linarith
          · simp at hp; subst hp; simp
        · intro hcon
          simp only [List.length_append, List.length_cons, List.length_nil] at hcon
          omega
        · intro p hp hpne
          rcases (List.mem_append.mp hp) with hp | hp
          · simpa using hbound p hp
          · simp at hp; subst hp; simp at hpne

theorem foldl_top2_good (rest : List (String × ℚ)) :
    ∀ seen st, (∀ p ∈ seen ++ rest, 0 < p.2) →
    (scores (seen ++ rest)).Nodup →
    Top2Good seen st → Top2Good (seen ++ rest) (rest.foldl top2Step st) := by
  induction rest with
  | nil => intro seen st _ _ h3; simpa using h3
  | cons e rest ih =>
    intro seen st h1 h2 h3
    have hassoc : seen ++ e :: rest = (seen ++ [e]) ++ rest := by simp
    rw [hassoc] at h1 h2 ⊢
    rw [List.foldl_cons]
    refine ih (seen ++ [e]) (top2Step st e) h1 h2 ?_
    have hpos : ∀ p ∈ seen, 0 < p.2 := fun p hp => h1 p (by simp [hp])
    have hepos : 0 < e.2 := h1 e (by simp)
    have hnotin : e.2 ∉ scores seen := by
      have hsub : (scores (seen ++ [e])).Nodup := by
        have : List.Sublist (scores (seen ++ [e])) (scores ((seen ++ [e]) ++ rest)) := by
          unfold scores
          exact List.Sublist.map _ (List.sublist_append_left _ _)
        exact List.Nodup.sublist this h2
      unfold scores at hsub
      rw [List.map_append] at hsub
      have := (List.nodup_append.mp hsub).2.2
      intro hmem
      exact this hmem (by simp [scores])
    exact top2Step_good seen st e hpos hepos hnotin h3

theorem insertAsc_mem (x : ImageInfo) (l : List ImageInfo) (z : ImageInfo) :
    z ∈ insertAsc x l ↔ z = x ∨ z ∈ l := by
  induction l with
  | nil => simp [insertAsc]
  | cons y ys ih =>
    rw [insertAsc]
    split
    · simp [List.mem_cons]
    · simp only [List.mem_cons, ih]
      tauto

theorem insertAsc_pairwise (x : ImageInfo) (l : List ImageInfo)
    (h : l.Pairwise (fun a b => a.top_confidence ≤ b.top_confidence)) :
    (insertAsc x l).Pairwise (fun a b => a.top_confidence ≤ b.top_confidence) := by
  induction l with
  | nil => simp [insertAsc]
  | cons y ys ih =>
    rw [List.pairwise_cons] at h
    rw [insertAsc]
    split
    · rename_i hxy
      rw [List.pairwise_cons]
      refine ⟨?_, List.pairwise_cons.mpr h⟩
      intro z hz
      rw [List.mem_cons] at hz
      rcases hz with hz | hz
      · subst hz; exact hxy
      · exact le_trans hxy (h.1 z hz)
    · rename_i hxy
      have hyx : y.top_confidence ≤ x.top_confidence := (lt_of_not_le hxy).le
      rw [List.pairwise_cons]
      refine ⟨?_, ih h.2⟩
      intro z hz
      rcases (insertAsc_mem x ys z).mp hz with hz | hz
      · subst hz; exact hyx
      · exact h.1 z hz

theorem sortAsc_pairwise (l : List ImageInfo) :
    (sortAsc l).Pairwise (fun a b => a.top_confidence ≤ b.top_confidence) := by
  induction l with
  | nil => simp [sortAsc]
  | cons x xs ih => exact insertAsc_pairwise x (sortAsc xs) ih

theorem insertAsc_filter (x : ImageInfo) (l : List ImageInfo) (k : ℚ) :
    (insertAsc x l).filter (fun r => decide (r.top_confidence = k)) =
      if x.top_confidence = k then
        x :: l.filter (fun r => decide (r.top_confidence = k))
      else l.filter (fun r => decide (r.top_confidence = k)) := by
  induction l with
  | nil => split_ifs with hx <;> simp [insertAsc, List.filter_cons, hx]
  | cons y ys ih =>
    rw [insertAsc]
    split
    · split_ifs with hx
      · simp [List.filter_cons, hx]
      · simp [List.filter_cons, hx]
    · rename_i hxy
      have hyx : y.top_confidence < x.top_confidence := lt_of_not_le hxy
      split_ifs with hx
      · have hy : y.top_confidence ≠ k := by
          intro hc; rw [← hx] at hc; exact absurd hc (by linarith)
        simp only [List.filter_cons]
        rw [ih]
        simp [hx, hy]
      · simp only [List.filter_cons]
        rw [ih]
        simp [hx]

theorem sortAsc_filter (l : List ImageInfo) (k : ℚ) :
    (sortAsc l).filter (fun r => decide (r.top_confidence = k)) =
      l.filter (fun r => decide (r.top_confidence = k)) := by
  induction l with
  | nil => simp [sortAsc]
  | cons x xs ih =>
    rw [sortAsc, insertAsc_filter]
    split_ifs with hx
    · simp [List.filter_cons, hx, ih]
    · simp [List.filter_cons, hx, ih]

theorem passOut_keys {α : Type} (key : α → String) :
    ∀ qs : List (String × List α), (∀ p ∈ qs, ∀ x ∈ p.2, key x = p.1) →
    (passOut qs).map key = keysOfNonempty qs
  | [], _ => rfl
  | (l, []) :: rest, h =>
    passOut_keys key rest (fun p hp => h p (by simp [hp]))
  | (l, x :: xs) :: rest, h => by
    rw [passOut, keysOfNonempty, List.map_cons]
    rw [passOut_keys key rest (fun p hp => h p (by simp [hp]))]
    rw [h (l, x :: xs) (by simp) x (by simp)]

theorem keysOfNonempty_passRest {α : Type} :
    ∀ qs : List (String × List α),
    List.Sublist (keysOfNonempty (passRest qs)) (keysOfNonempty qs)
  | [] => List.Sublist.refl _
  | (l, []) :: rest => by
    rw [passRest, keysOfNonempty]
    simp only [List.tail]
    rw [keysOfNonempty]
    exact keysOfNonempty_passRest rest
  | (l, [x]) :: rest => by
    rw [passRest, keysOfNonempty]
    simp only [List.tail]
    rw [keysOfNonempty]
    exact List.Sublist.cons _ (keysOfNonempty_passRest rest)
  | (l, x :: y :: ys) :: rest => by
    rw [passRest, keysOfNonempty]
    simp only [List.tail]
    rw [keysOfNonempty]
    exact List.Sublist.cons₂ _ (keysOfNonempty_passRest rest)

theorem passRest_keys {α : Type} :
    ∀ qs : List (String × List α),
    (passRest qs).map (fun p => p.1) = qs.map (fun p => p.1)
  | [] => rfl
  | (l, q) :: rest => by
    rw [passRest, List.map_cons, List.map_cons, passRest_keys rest]

theorem passRest_keyed {α : Type} (key : α → String) :
    ∀ qs : List (String × List α), (∀ p ∈ qs, ∀ x ∈ p.2, key x = p.1) →
    ∀ p ∈ passRest qs, ∀ x ∈ p.2, key x = p.1
  | [], _ => by simp [passRest]
  | (l, q) :: rest, h => by
    rw [passRest]
    intro p hp x hx
    rw [List.mem_cons] at hp
    rcases hp with rfl | hp
    · exact h (l, q) (by simp) x (List.mem_of_mem_tail hx)
    · exact passRest_keyed key rest (fun p hp => h p (by simp [hp])) p hp x hx

theorem passRest_wf {α : Type} (key : α → String) (qs : List (String × List α))
    (h : WFQueues key qs) : WFQueues key (passRest qs) :=
  ⟨by rw [passRest_keys]; exact h.1, passRest_keyed key qs h.2⟩

theorem totalSize_passRest {α : Type} :
    ∀ qs : List (String × List α),
    totalSize (passRest qs) + (passOut qs).length = totalSize qs
  | [] => rfl
  | (l, []) :: rest => by
    rw [passRest, totalSize, passOut, totalSize]
    simp only [List.tail, List.length_nil]
    have := totalSize_passRest rest
    omega
  | (l, x :: xs) :: rest => by
    rw [passRest, totalSize, passOut, totalSize]
    simp only [List.tail, List.length_cons]
    have := totalSize_passRest rest
    omega

theorem passOut_ne_nil {α : Type} :
    ∀ qs : List (String × List α), totalSize qs ≠ 0 → passOut qs ≠ []
  | [], h => absurd rfl h
  | (l, []) :: rest, h => by
    rw [totalSize] at h
    rw [passOut]
    exact passOut_ne_nil rest (by simpa using h)
  | (l, x :: xs) :: rest, h => by
    rw [passOut]
    simp

/-- A sublist of a duplicate-free list that starts with the big list's
final element must be exactly that one element. -/
theorem sublist_pin (a : String) :
    ∀ (L L' : List String), List.Sublist L' L → L.Nodup →
    L.getLast? = some a → L'.head? = some a → L' = [a] := by
  intro L
  induction L with
  | nil => intro L' _ _ hlast _; simp at hlast
  | cons b M ih =>
    intro L' hsub hnd hlast hhead
    cases L' with
    | nil => simp at hhead
    | cons d T =>
      have hd : a = d := (by simpa using hhead : d = a).symm
      subst hd
      cases M with
      | nil =>
        have hb : b = a := by simpa using hlast
        cases hsub with
        | cons _ h =>
          exact absurd (List.sublist_nil.mp h) (by simp)
        | cons₂ _ h =>
          rw [List.sublist_nil.mp h]
      | cons c M' =>
        rw [List.getLast?_cons_cons] at hlast
        have hbnot : b ∉ c :: M' := (List.nodup_cons.mp hnd).1
        have hnd' : (c :: M').Nodup := (List.nodup_cons.mp hnd).2
        cases hsub with
        | cons _ h => exact ih (a :: T) h hnd' hlast rfl
        | cons₂ _ h =>
          exfalso
          apply hbnot
          obtain ⟨hne, heq⟩ :=
            List.mem_getLast?_eq_getLast (show _ ∈ _ from hlast)
          rw [heq]
          exact List.getLast_mem hne

/-- Appending a duplicate-free block in front of a no-stutter list
keeps the no-stutter property, provided a repeated label across the
boundary forces the tail constant. -/
theorem noStut_append (r : List String) :
    ∀ p : List String, p.Nodup → noStut r →
    (∀ a, p.getLast? = some a → r.head? = some a → ∀ x ∈ r, x = a) →
    noStut (p ++ r) := by
  intro p
  induction p with
  | nil => intro _ h _; simpa using h
  | cons a p' ih =>
    intro hnd hr hbound
    cases p' with
    | nil =>
      rw [List.singleton_append]
      cases r with
      | nil => trivial
      | cons b t =>
        rw [noStut]
        refine ⟨fun hab x hx => ?_, hr⟩
        exact hbound a rfl (by rw [List.head?]; exact congrArg some hab.symm) x hx
    | cons a2 p'' =>
      rw [List.cons_append, List.cons_append, noStut]
      have hne : a ≠ a2 := by
        intro hc
        exact (List.nodup_cons.mp hnd).1 (by simp [hc])
      refine ⟨fun hab => absurd hab hne, ?_⟩
      rw [← List.cons_append]
      refine ih (List.nodup_cons.mp hnd).2 hr ?_
      intro x hlast hhead
      refine hbound x ?_ hhead
      rw [List.getLast?_cons_cons]
      exact hlast

theorem passOut_mem {α : Type} :
    ∀ qs : List (String × List α), ∀ x ∈ passOut qs, ∃ p ∈ qs, x ∈ p.2
  | [] => by simp [passOut]
  | (l, []) :: rest => by
    rw [passOut]
    intro x hx
    obtain ⟨p, hp, hxp⟩ := passOut_mem rest x hx
    exact ⟨p, by simp [hp], hxp⟩
  | (l, y :: ys) :: rest => by
    rw [passOut]
    intro x hx
    rw [List.mem_cons] at hx
    rcases hx with rfl | hx
    · exact ⟨(l, x :: ys), by simp, by simp⟩
    · obtain ⟨p, hp, hxp⟩ := passOut_mem rest x hx
      exact ⟨p, by simp [hp], hxp⟩

theorem keysOfNonempty_sublist_keys {α : Type} :
    ∀ qs : List (String × List α),
    List.Sublist (keysOfNonempty qs) (qs.map (fun p => p.1))
  | [] => List.Sublist.refl _
  | (l, []) :: rest => by
    rw [keysOfNonempty, List.map_cons]
    exact List.Sublist.cons _ (keysOfNonempty_sublist_keys rest)
  | (l, x :: xs) :: rest => by
    rw [keysOfNonempty, List.map_cons]
    exact List.Sublist.cons₂ _ (keysOfNonempty_sublist_keys rest)

theorem mem_keysOfNonempty {α : Type} :
    ∀ qs : List (String × List α), ∀ p ∈ qs, p.2 ≠ [] →
    p.1 ∈ keysOfNonempty qs
  | [] => by simp
  | (l, []) :: rest => by
    intro p hp hpne
    rw [List.mem_cons] at hp
    rcases hp with rfl | hp
    · exact absurd rfl hpne
    · rw [keysOfNonempty]
      exact mem_keysOfNonempty rest p hp hpne
  | (l, x :: xs) :: rest => by
    intro p hp hpne
    rw [List.mem_cons] at hp
    rcases hp with rfl | hp
    · rw [keysOfNonempty]; simp
    · rw [keysOfNonempty, List.mem_cons]
      exact Or.inr (mem_keysOfNonempty rest p hp hpne)

theorem onlyKey_passRest {α : Type} (a : String)
    (qs : List (String × List α)) (h : OnlyKey a qs) :
    OnlyKey a (passRest qs) := by
  induction qs with
  | nil => simp [passRest, OnlyKey]
  | cons p rest ih =>
    obtain ⟨l, q⟩ := p
    rw [passRest]
    intro p hp hpne
    rw [List.mem_cons] at hp
    rcases hp with rfl | hp
    · refine h (l, q) (by simp) ?_
      intro hc
      dsimp only at hc hpne
      subst hc
      simp at hpne
    · exact ih (fun p hp => h p (by simp [hp])) p hp hpne

theorem roundRobinGo_onlyKey {α : Type} (key : α → String) (a : String) :
    ∀ (n : ℕ) (qs : List (String × List α)),
    (∀ p ∈ qs, ∀ x ∈ p.2, key x = p.1) → OnlyKey a qs →
    ∀ x ∈ roundRobinGo n qs, key x = a := by
  intro n
  induction n with
  | zero => intro qs _ _ x hx; simp [roundRobinGo] at hx
  | succ n ih =>
    intro qs hkeyed honly x hx
    rw [roundRobinGo] at hx
    split at hx
    · simp at hx
    · rw [List.mem_append] at hx
      rcases hx with hx | hx
      · obtain ⟨p, hp, hxp⟩ := passOut_mem qs x hx
        rw [hkeyed p hp x hxp]
        exact honly p hp (by intro hc; rw [hc] at hxp; simp at hxp)
      · exact ih (passRest qs) (passRest_keyed key qs hkeyed)
          (onlyKey_passRest a qs honly) x hx

/-- Interleaving well-formed queues never emits two consecutive values
of the same key unless only that key's queue still has values — in
which case the whole remaining output carries that key. -/
theorem roundRobinGo_noStut {α : Type} (key : α → String) :
    ∀ (n : ℕ) (qs : List (String × List α)), WFQueues key qs →
    totalSize qs ≤ n → noStut ((roundRobinGo n qs).map key) := by
  intro n
  induction n with
  | zero =>
    intro qs _ _
    rw [roundRobinGo]
    trivial
  | succ n ih =>
    intro qs hwf hle
    rw [roundRobinGo]
    split
    · trivial
    · rename_i hne
      rw [List.map_append]
      have hout_ne : passOut qs ≠ [] := passOut_ne_nil qs hne
      have hsize : totalSize (passRest qs) ≤ n := by
        have h1 := totalSize_passRest qs
        have h2 : 1 ≤ (passOut qs).length := by
          cases hp : passOut qs with
          | nil => exact absurd hp hout_ne
          | cons z zs => simp
        omega
      refine noStut_append _ _ ?_
        (ih (passRest qs) (passRest_wf key qs hwf) hsize) ?_
      · rw [passOut_keys key qs hwf.2]
        exact (keysOfNonempty_sublist_keys qs).nodup hwf.1
      · intro a hlast hhead
        have hhead' : (keysOfNonempty (passRest qs)).head? = some a := by
          cases n with
          | zero => rw [roundRobinGo] at hhead; simp at hhead
          | succ m =>
            rw [roundRobinGo] at hhead
            split at hhead
            · simp at hhead
            · rename_i hne2
              rw [List.map_append, List.head?_append_of_ne_nil] at hhead
              · rw [← passOut_keys key (passRest qs)
                  (passRest_keyed key qs hwf.2)]
                exact hhead
              · intro hc
                exact passOut_ne_nil (passRest qs) hne2
                  (List.map_eq_nil_iff.mp hc)
        have hpin : keysOfNonempty (passRest qs) = [a] :=
          sublist_pin a (keysOfNonempty qs) (keysOfNonempty (passRest qs))
            (keysOfNonempty_passRest qs)
            ((keysOfNonempty_sublist_keys qs).nodup hwf.1)
            (by rw [← passOut_keys key qs hwf.2]; exact hlast) hhead'
        have honly : OnlyKey a (passRest qs) := by
          intro p hp hpne
          have hm := mem_keysOfNonempty (passRest qs) p hp hpne
          rw [hpin] at hm
          simpa using hm
        intro x hx
        rw [List.mem_map] at hx
        obtain ⟨y, hy, rfl⟩ := hx
        exact roundRobinGo_onlyKey key a n (passRest qs)
          (passRest_keyed key qs hwf.2) honly y hy

theorem updateQueue_keys_mem {α : Type} :
    ∀ (qs : List (String × List α)) (k : String) (v : α) (m : String),
    m ∈ (updateQueue qs k v).map (fun p => p.1) →
    m ∈ qs.map (fun p => p.1) ∨ m = k
  | [], k, v, m => by
    rw [updateQueue]
    intro h
    simp at h
    exact Or.inr h
  | (l, q) :: rest, k, v, m => by
    rw [updateQueue]
    split
    · intro h
      exact Or.inl h
    · intro h
      rw [List.map_cons, List.mem_cons] at h
      rcases h with rfl | h
      · exact Or.inl (by simp)
      · rcases updateQueue_keys_mem rest k v m h with h | h
        · exact Or.inl (by simp [h])
        · exact Or.inr h

theorem updateQueue_keys_nodup {α : Type} :
    ∀ (qs : List (String × List α)) (k : String) (v : α),
    (qs.map (fun p => p.1)).Nodup → ((updateQueue qs k v).map (fun p => p.1)).Nodup
  | [], k, v, _ => by simp [updateQueue]
  | (l, q) :: rest, k, v, h => by
    rw [updateQueue]
    split
    · exact h
    · rename_i hlk
      rw [List.map_cons, List.nodup_cons]
      rw [List.map_cons, List.nodup_cons] at h
      refine ⟨?_, updateQueue_keys_nodup rest k v h.2⟩
      intro hc
      rcases updateQueue_keys_mem rest k v l hc with hc | hc
      · exact h.1 hc
      · exact hlk hc

theorem updateQueue_keyed {α : Type} (key : α → String) :
    ∀ (qs : List (String × List α)) (k : String) (v : α),
    (∀ p ∈ qs, ∀ x ∈ p.2, key x = p.1) → key v = k →
    ∀ p ∈ updateQueue qs k v, ∀ x ∈ p.2, key x = p.1
  | [], k, v, _, hv => by
    rw [updateQueue]
    intro p hp x hx
    rw [List.mem_singleton] at hp
    subst hp
    rw [List.mem_singleton] at hx
    subst hx
    exact hv
  | (l, q) :: rest, k, v, h, hv => by
    rw [updateQueue]
    split
    · rename_i hlk
      intro p hp x hx
      rw [List.mem_cons] at hp
      rcases hp with rfl | hp
      · rw [List.mem_append] at hx
        rcases hx with hx | hx
        · exact h (l, q) (by simp) x hx
        · rw [List.mem_singleton] at hx
          subst hx
          rw [hv, hlk]
      · exact h p (by simp [hp]) x hx
    · intro p hp x hx
      rw [List.mem_cons] at hp
      rcases hp with rfl | hp
      · exact h (l, q) (by simp) x hx
      · exact updateQueue_keyed key rest k v
          (fun p hp => h p (by simp [hp])) hv p hp x hx

theorem foldl_updateQueue_wf {α : Type} (key : α → String) :
    ∀ (l : List α) (qs : List (String × List α)), WFQueues key qs →
    WFQueues key (l.foldl (fun qs x => updateQueue qs (key x) x) qs)
  | [], qs, h => h
  | x :: rest, qs, h => by
    rw [List.foldl_cons]
    exact foldl_updateQueue_wf key rest _
      ⟨updateQueue_keys_nodup qs (key x) x h.1,
       updateQueue_keyed key qs (key x) x h.2 rfl⟩

theorem partitionByKey_wf {α : Type} (key : α → String) (l : List α) :
    WFQueues key (partitionByKey key l) :=
  foldl_updateQueue_wf key l [] ⟨List.nodup_nil, by simp⟩

theorem mapQueues_nil {α β : Type} (g : α → β) : mapQueues g [] = [] := rfl

theorem mapQueues_cons {α β : Type} (g : α → β) (l : String) (q : List α)
    (rest : List (String × List α)) :
    mapQueues g ((l, q) :: rest) = (l, q.map g) :: mapQueues g rest := rfl

theorem updateQueue_mapQueues {α β : Type} (g : α → β) :
    ∀ (qs : List (String × List α)) (k : String) (v : α),
    updateQueue (mapQueues g qs) k (g v) = mapQueues g (updateQueue qs k v)
  | [], k, v => by simp [updateQueue, mapQueues]
  | (l, q) :: rest, k, v => by
    rw [mapQueues_cons, updateQueue, updateQueue]
    split
    · rw [mapQueues_cons, List.map_append, List.map_singleton]
    · rw [updateQueue_mapQueues g rest k v, mapQueues_cons]

theorem passOut_mapQueues {α β : Type} (g : α → β) :
    ∀ qs : List (String × List α),
    passOut (mapQueues g qs) = (passOut qs).map g
  | [] => rfl
  | (l, []) :: rest => by
    rw [mapQueues_cons, List.map_nil, passOut, passOut]
    exact passOut_mapQueues g rest
  | (l, x :: xs) :: rest => by
    rw [mapQueues_cons, List.map_cons, passOut, passOut, List.map_cons]
    rw [passOut_mapQueues g rest]

theorem passRest_mapQueues {α β : Type} (g : α → β) :
    ∀ qs : List (String × List α),
    passRest (mapQueues g qs) = mapQueues g (passRest qs)
  | [] => rfl
  | (l, q) :: rest => by
    rw [mapQueues_cons, passRest, passRest, passRest_mapQueues g rest,
      mapQueues_cons]
    cases q <;> rfl

theorem totalSize_mapQueues {α β : Type} (g : α → β) :
    ∀ qs : List (String × List α), totalSize (mapQueues g qs) = totalSize qs
  | [] => rfl
  | (l, q) :: rest => by
    rw [mapQueues_cons, totalSize, totalSize, List.length_map,
      totalSize_mapQueues g rest]

theorem roundRobinGo_mapQueues {α β : Type} (g : α → β) :
    ∀ (n : ℕ) (qs : List (String × List α)),
    roundRobinGo n (mapQueues g qs) = (roundRobinGo n qs).map g := by
  intro n
  induction n with
  | zero => intro qs; rfl
  | succ n ih =>
    intro qs
    rw [roundRobinGo, roundRobinGo, totalSize_mapQueues]
    split
    · rfl
    · rw [List.map_append, passOut_mapQueues, passRest_mapQueues, ih]

theorem roundRobin_mapQueues {α β : Type} (g : α → β)
    (qs : List (String × List α)) :
    roundRobin (mapQueues g qs) = (roundRobin qs).map g := by
  rw [roundRobin, roundRobin, totalSize_mapQueues, roundRobinGo_mapQueues]

theorem foldl_updateQueue_mapQueues {α β : Type} (key : α → String) (g : α → β) :
    ∀ (l : List α) (qs : List (String × List α)),
    l.foldl (fun qs r => updateQueue qs (key r) (g r)) (mapQueues g qs) =
      mapQueues g (l.foldl (fun qs r => updateQueue qs (key r) r) qs)
  | [], qs => rfl
  | x :: rest, qs => by
    rw [List.foldl_cons, List.foldl_cons, updateQueue_mapQueues]
    exact foldl_updateQueue_mapQueues key g rest _

/-- The source's strategy-3 queues (which store image identifiers) are
the image of the record-level partition, so the emitted identifiers are
the images of the emitted records. -/
theorem stratifiedOrder_eq_map (preds : List ImageInfo) :
    stratifiedOrder preds =
      (roundRobin (partitionByKey (fun r => r.top_prediction) preds)).map
        (fun r => r.image) := by
  rw [stratifiedOrder, partitionByKey, ← roundRobin_mapQueues,
    ← foldl_updateQueue_mapQueues (fun r => r.top_prediction)
      (fun r => r.image) preds []]
  rfl

/-- The run over a directory holding only a non-jpeg file: the empty
prediction list flows into the ratio division `0.0 / 0.0`, which kills
the whole run. -/
theorem ex_run_png : runPipeline exOracle randKeep [("cat", ["a.png"])] =
    .error .zeroDivisionError := by
  rw [runPipeline, dirsLoop, imagesLoop]
  norm_num [randKeep, get_image_prediction,
    show strEndsWith "a.png" ".jpg" = false from by decide,
    show strEndsWith "a.png" ".jpeg" = false from by decide,
    processImage, extractTop2, top2Init, pyDiv, Bind.bind, Except.bind]

/-- A successful run reports exactly the ground-truth directory labels,
in directory order. -/
theorem runPipeline_report_keys (oracle : String → ScoreMap) (rands : ℕ → ℚ)
    (dirs : List (String × List String)) (out : RunOutput)
    (h : runPipeline oracle rands dirs = .ok out) :
    out.label_reports.map (fun r => r.1) = dirs.map (fun d => d.1) := by
  unfold runPipeline at h
  obtain ⟨⟨st, k⟩, hd, h⟩ := except_bind_ok _ _ _ h
  obtain ⟨microf, hm, h⟩ := except_bind_ok _ _ _ h
  obtain ⟨macrof, hma, h⟩ := except_bind_ok _ _ _ h
  simp at h
  rw [← h]
  have hk := dirsLoop_report_keys oracle rands dirs 0 runStateInit st k hd
  simpa [runStateInit] using hk

/-! ## The claims -/

/-- C1, counterexample: on the score map a ↦ 0.5, b ↦ 0.5, c ↦ 0.7 the
extraction returns second label `b`, yet the first-seen entry scoring
0.5 — the tie-break the claim states — is `a`: when a new maximum
arrives while top and second are tied, the demotion guard drops the old
top instead of demoting it. -/
theorem C1_counterexample :
    extractTop2 [("a", 1/2), ("b", 1/2), ("c", 7/10)] = ⟨"c", 7/10, "b", 1/2⟩ ∧
    List.filter (fun p => decide (p.2 = (1 : ℚ)/2))
        [("a", (1 : ℚ)/2), ("b", 1/2), ("c", 7/10)] =
      [("a", 1/2), ("b", 1/2)] := by
  constructor
  · norm_num [extractTop2, top2Step, top2Init]
  · norm_num [List.filter_cons]

/-- C1 (amended): for every score map with at least two entries whose
scores are positive and pairwise distinct, the single-pass extraction
returns exactly the two highest-scoring entries: both returned pairs
are entries of the map, the second is strictly below the top, every
entry scores at most the top, and every entry other than the top one
scores at most the second.  (With tied scores the second label can
deviate from first-seen order, as the counterexample shows.) -/
theorem C1_extract_top_two (preds : ScoreMap)
    (hpos : ∀ p ∈ preds, 0 < p.2) (hnd : (scores preds).Nodup)
    (hlen : 2 ≤ preds.length) :
    ((extractTop2 preds).top_prediction, (extractTop2 preds).top_confidence) ∈ preds ∧
    ((extractTop2 preds).second_prediction, (extractTop2 preds).second_confidence) ∈ preds ∧
    (extractTop2 preds).second_confidence < (extractTop2 preds).top_confidence ∧
    (∀ p ∈ preds, p.2 ≤ (extractTop2 preds).top_confidence) ∧
    (∀ p ∈ preds,
      p ≠ ((extractTop2 preds).top_prediction, (extractTop2 preds).top_confidence) →
      p.2 ≤ (extractTop2 preds).second_confidence) := by
  have h := foldl_top2_good preds [] top2Init (by simpa using hpos)
    (by simpa using hnd) ⟨fun _ => rfl, fun hc => absurd rfl hc⟩
  simp only [List.nil_append] at h
  have hne : preds ≠ [] := by intro hc; subst hc; simp at hlen
  obtain ⟨htop, hbound, _, htwo⟩ := h.2 hne
  obtain ⟨hsec, hlt, hsb⟩ := htwo hlen
  exact ⟨htop, hsec, hlt, hbound, hsb⟩

/-- C1, witness: the amended theorem evaluated on the two-entry map
a ↦ 0.5, b ↦ 0.7. -/
theorem C1_witness :
    ((extractTop2 exPair).top_prediction, (extractTop2 exPair).top_confidence) ∈ exPair ∧
    ((extractTop2 exPair).second_prediction, (extractTop2 exPair).second_confidence) ∈ exPair ∧
    (extractTop2 exPair).second_confidence < (extractTop2 exPair).top_confidence ∧
    (∀ p ∈ exPair, p.2 ≤ (extractTop2 exPair).top_confidence) ∧
    (∀ p ∈ exPair,
      p ≠ ((extractTop2 exPair).top_prediction, (extractTop2 exPair).top_confidence) →
      p.2 ≤ (extractTop2 exPair).second_confidence) :=
  C1_extract_top_two exPair
    (by intro p hp; simp [exPair] at hp; rcases hp with rfl | rfl <;> norm_num)
    (by simp [scores, exPair]; norm_num)
    (by simp [exPair])

/-- C2, counterexample: one item with ground truth `a` is predicted
`b`; the report charges label `a` (the ground truth) with fp = 1 while
the predicted label `b` keeps every counter at zero — the claim says
`b`'s false_positive_count is incremented. -/
theorem C2_counterexample :
    (runPipeline exOracle randKeep exDirs).toOption.map
        (fun o => (o.label_reports,
          o.all_predictions.map (fun r => r.top_prediction))) =
      some ([("a", ⟨1, 0, 1, 1⟩, 0), ("b", ⟨0, 0, 0, 0⟩, 0)], ["b"]) := by
  rw [ex_run]
  rfl

/-- C2 (amended): when the top prediction differs from the ground-truth
label, the code increments the ground-truth label's fn AND the
ground-truth label's fp (its per-directory counters; the predicted
label's counters are untouched); when they agree only tp is
incremented; and a successful run reports exactly the ground-truth
directory labels, so a label that never occurs as ground truth accrues
no counters at all. -/
theorem C2_observe (top label : String) (c : Counters) :
    (top = label → updateMetrics top label c =
      { c with tp := c.tp + 1, count := c.count + 1 }) ∧
    (top ≠ label → updateMetrics top label c =
      { c with fn := c.fn + 1, fp := c.fp + 1, count := c.count + 1 }) ∧
    (∀ (oracle : String → ScoreMap) (rands : ℕ → ℚ)
       (dirs : List (String × List String)) (out : RunOutput),
       runPipeline oracle rands dirs = .ok out →
       out.label_reports.map (fun r => r.1) = dirs.map (fun d => d.1)) := by
  refine ⟨fun h => by simp [updateMetrics, h],
    fun h => by simp [updateMetrics, h], ?_⟩
  intro oracle rands dirs out h
  exact runPipeline_report_keys oracle rands dirs out h

/-- C2, witness: the amended theorem at the concrete mismatch `b` vs
`a` and at the concrete run `ex_run`. -/
theorem C2_witness :
    updateMetrics "b" "a" countersInit = ⟨1, 0, 1, 1⟩ ∧
    exOut.label_reports.map (fun r => r.1) = exDirs.map (fun d => d.1) :=
  ⟨(C2_observe "b" "a" countersInit).2.1 (by decide),
   (C2_observe "b" "a" countersInit).2.2 exOracle randKeep exDirs exOut ex_run⟩

/-- C3, counterexample: same directories and same oracle — only the
unseeded random draws differ — yet the two runs disagree (one run
succeeds, the other skips every item and then dies dividing by the
zero item count), so the pipeline is not a function of the input the
claim fixes. -/
theorem C3_counterexample :
    runPipeline exOracle randKeep exDirs ≠ runPipeline exOracle randSkip exDirs := by
  rw [ex_run, ex_run_skip]
  exact fun h => Except.noConfusion h

/-- C3 (amended): with the random draws made part of the input the
pipeline is deterministic (two runs on equal inputs agree); the final
ordering is ascending in top confidence; and the sort is stable — the
records at any fixed top-confidence key keep their original relative
order. -/
theorem C3_determinism_stability :
    (∀ (o₁ o₂ : String → ScoreMap) (r₁ r₂ : ℕ → ℚ)
       (d₁ d₂ : List (String × List String)), o₁ = o₂ → r₁ = r₂ → d₁ = d₂ →
       runPipeline o₁ r₁ d₁ = runPipeline o₂ r₂ d₂) ∧
    (∀ l : List ImageInfo,
       (sortAsc l).Pairwise (fun a b => a.top_confidence ≤ b.top_confidence)) ∧
    (∀ (l : List ImageInfo) (k : ℚ),
       (sortAsc l).filter (fun r => decide (r.top_confidence = k)) =
         l.filter (fun r => decide (r.top_confidence = k))) := by
  refine ⟨?_, sortAsc_pairwise, sortAsc_filter⟩
  rintro o₁ o₂ r₁ r₂ d₁ d₂ rfl rfl rfl
  rfl

/-- C3, witness: determinism instantiated on the concrete run. -/
theorem C3_witness :
    runPipeline exOracle randKeep exDirs = runPipeline exOracle randKeep exDirs :=
  C3_determinism_stability.1 exOracle exOracle randKeep randKeep exDirs exDirs
    rfl rfl rfl

/-- C4: on every successful run micro-f equals the count-weighted mean
Σ f·count over the per-label reports divided by the total number of
scored items, and macro-f the unweighted mean over the labels; on the
2-label synthetic corpus (8 items at f = 0.8, 2 items at f = 0.5) the
formulas give exactly 0.74 and 0.65. -/
theorem C4_micro_macro :
    (∀ (oracle : String → ScoreMap) (rands : ℕ → ℚ)
       (dirs : List (String × List String)) (out : RunOutput),
       runPipeline oracle rands dirs = .ok out →
       out.microf =
         sumMicro out.label_reports / ((sumCount out.label_reports : ℕ) : ℚ) ∧
       out.macrof =
         sumMacro out.label_reports / ((out.label_reports.length : ℕ) : ℚ)) ∧
    sumMicro exReports / ((sumCount exReports : ℕ) : ℚ) = 37/50 ∧
    sumMacro exReports / ((exReports.length : ℕ) : ℚ) = 13/20 := by
  refine ⟨runPipeline_metrics, ?_, ?_⟩
  · norm_num [sumMicro, sumCount, exReports]
  · norm_num [sumMacro, exReports]

/-- C4, witness: the aggregate formulas hold of the concrete run. -/
theorem C4_witness :
    exOut.microf =
      sumMicro exOut.label_reports / ((sumCount exOut.label_reports : ℕ) : ℚ) ∧
    exOut.macrof =
      sumMacro exOut.label_reports / ((exOut.label_reports.length : ℕ) : ℚ) :=
  C4_micro_macro.1 exOracle randKeep exDirs exOut ex_run

/-- C5: a label with tp = 0 gets f-score 0 whatever fp and fn are; a
label with tp > 0 gets 2·precision·recall/(precision+recall) with
precision = tp/(tp+fp) and recall = tp/(tp+fn); and tp = 3, fp = 1,
fn = 1 gives exactly 0.75. -/
theorem C5_fscore (tp fp fn : ℕ) :
    (tp = 0 → fscoreOf tp fp fn = 0) ∧
    (0 < tp → fscoreOf tp fp fn =
      (2 * ((tp : ℚ) / ((tp : ℚ) + (fp : ℚ))) * ((tp : ℚ) / ((tp : ℚ) + (fn : ℚ)))) /
        ((tp : ℚ) / ((tp : ℚ) + (fp : ℚ)) + (tp : ℚ) / ((tp : ℚ) + (fn : ℚ)))) ∧
    fscoreOf 3 1 1 = 3/4 := by
  refine ⟨fun h => by simp [fscoreOf, h], fun h => ?_, by norm_num [fscoreOf]⟩
  have htp : tp ≠ 0 := by omega
  simp [fscoreOf, htp]

/-- C5, witness: the zero-tp clause at fp = 5, fn = 7 and the concrete
0.75 check. -/
theorem C5_witness : fscoreOf 0 5 7 = 0 ∧ fscoreOf 3 1 1 = 3/4 :=
  ⟨(C5_fscore 0 5 7).1 rfl, (C5_fscore 3 1 1).2.2⟩

/-- C6, counterexample: a single-label oracle response: instead of
creating a ranking record with the ratio marked undefined, the driver
unconditionally divides the top confidence by the zero second
confidence and the computation fails — no record exists and nothing is
signalled as InsufficientPredictions. -/
theorem C6_counterexample :
    processImage "x.jpg" [("cat", 9/10)] "cat" countersInit =
      .error .zeroDivisionError := by
  have hext : extractTop2 [("cat", 9/10)] = ⟨"cat", 9/10, "", 0⟩ := by
    norm_num [extractTop2, top2Step, top2Init]
  rw [processImage, hext]
  simp [pyDiv, Bind.bind, Except.bind]

/-- C6 (amended): with fewer than two candidate labels the second
fields indeed stay empty/zero, and for exactly one positive-scored
label the top pair is still the valid entry; but the driver then
unconditionally computes the ratio, which raises ZeroDivisionError —
no InsufficientPredictions condition is signalled, no record is
created, and no default value is substituted. -/
theorem C6_insufficient (image label : String) (c : Counters) (l : String)
    (s : ℚ) (hs : 0 < s) :
    extractTop2 [(l, s)] = ⟨l, s, "", 0⟩ ∧
    processImage image [(l, s)] label c = .error .zeroDivisionError ∧
    processImage image [] label c = .error .zeroDivisionError := by
  have hext : extractTop2 [(l, s)] = ⟨l, s, "", 0⟩ := by
    simp [extractTop2, top2Step, top2Init, hs]
  refine ⟨hext, ?_, ?_⟩
  · rw [processImage, hext]
    simp [pyDiv, Bind.bind, Except.bind]
  · rw [processImage]
    simp [extractTop2, top2Init, pyDiv, Bind.bind, Except.bind]

/-- C6, witness: the amended theorem on the one-label map cat ↦ 0.9. -/
theorem C6_witness :
    extractTop2 [("cat", (9 : ℚ)/10)] = ⟨"cat", (9 : ℚ)/10, "", 0⟩ ∧
    processImage "i.jpg" [("cat", (9 : ℚ)/10)] "cat" countersInit =
      .error .zeroDivisionError ∧
    processImage "i.jpg" [] "cat" countersInit = .error .zeroDivisionError :=
  C6_insufficient "i.jpg" "cat" countersInit "cat" ((9 : ℚ)/10) (by norm_num)

/-- C7 (code bug): a NotApplicable item — a non-jpeg file — yields the
empty prediction list from `get_image_prediction` exactly as designed,
but the driver does not skip it: the empty list flows into
`ratio = 0.0 / 0.0` and the whole run aborts with ZeroDivisionError
instead of continuing without the item. -/
theorem C7_not_skipped :
    get_image_prediction exOracle "a.png" = [] ∧
    runPipeline exOracle randKeep [("cat", ["a.png"])] =
      .error .zeroDivisionError := by
  refine ⟨?_, ex_run_png⟩
  simp [get_image_prediction,
    show strEndsWith "a.png" ".jpg" = false from by decide,
    show strEndsWith "a.png" ".jpeg" = false from by decide]

/-- C8: the round-robin interleaving of the per-top-label queues (keys
in first-seen order, values in insertion order) never emits two
consecutive records of the same predicted label unless every remaining
record has that label (that is, all other queues are exhausted); the
emitted identifiers are exactly the images of the emitted records; and
the insertion order A,A,B,A,B,C yields a1,b1,c1,a2,b2,a3, whose label
order is A,B,C,A,B,A. -/
theorem C8_round_robin :
    (∀ (α : Type) (key : α → String) (l : List α),
      noStut ((roundRobin (partitionByKey key l)).map key)) ∧
    (∀ preds : List ImageInfo, stratifiedOrder preds =
      (roundRobin (partitionByKey (fun r => r.top_prediction) preds)).map
        (fun r => r.image)) ∧
    stratifiedOrder exRecs = ["a1", "b1", "c1", "a2", "b2", "a3"] ∧
    (roundRobin (partitionByKey (fun r : ImageInfo => r.top_prediction) exRecs)).map
        (fun r => r.top_prediction) = ["A", "B", "C", "A", "B", "A"] := by
  refine ⟨?_, stratifiedOrder_eq_map, ?_, ?_⟩
  · intro α key l
    rw [roundRobin]
    exact roundRobinGo_noStut key (totalSize (partitionByKey key l))
      (partitionByKey key l) (partitionByKey_wf key l) le_rfl
  · simp [stratifiedOrder, exRecs, updateQueue, roundRobin, roundRobinGo,
      totalSize, passOut, passRest]
  · simp [partitionByKey, exRecs, updateQueue, roundRobin, roundRobinGo,
      totalSize, passOut, passRest]

/-- C9: every extraction satisfies top confidence ≥ second confidence,
whatever the input score map. -/
theorem C9_top_ge_second (predictions : ScoreMap) :
    (extractTop2 predictions).top_confidence ≥
      (extractTop2 predictions).second_confidence :=
  foldl_top2_mono predictions top2Init le_rfl

/-- C10: the per-directory fn and fp counters are only ever incremented
together, so fn = fp is preserved by the whole image loop; and whenever
fp = fn and tp > 0, precision equals recall and the f-score equals that
common value. -/
theorem C10_fp_eq_fn :
    (∀ (oracle : String → ScoreMap) (label : String) (rands : ℕ → ℚ)
       (images : List String) (k : ℕ) (c : Counters) (acc : List ImageInfo)
       (c' : Counters) (out : List ImageInfo) (k' : ℕ), c.fn = c.fp →
       imagesLoop oracle label rands images k c acc = .ok (c', out, k') →
       c'.fn = c'.fp) ∧
    (∀ tp fp fn : ℕ, fp = fn → 0 < tp →
       (tp : ℚ) / ((tp : ℚ) + (fp : ℚ)) = (tp : ℚ) / ((tp : ℚ) + (fn : ℚ)) ∧
       fscoreOf tp fp fn = (tp : ℚ) / ((tp : ℚ) + (fp : ℚ))) := by
  refine ⟨?_, fun tp fp fn hfp htp => fscore_eq_precision tp fp fn hfp htp⟩
  intro oracle label rands images k c acc c' out k' hc h
  exact imagesLoop_fn_fp oracle label rands images k c acc c' out k' hc h

/-- C10, witness: the loop invariant on the concrete run (final
counters 1, 0, 1, 1) and the collapse of the metrics at tp = 3,
fp = fn = 1. -/
theorem C10_witness :
    ((⟨1, 0, 1, 1⟩ : Counters).fn = (⟨1, 0, 1, 1⟩ : Counters).fp) ∧
    (((3 : ℕ) : ℚ) / (((3 : ℕ) : ℚ) + ((1 : ℕ) : ℚ)) =
        ((3 : ℕ) : ℚ) / (((3 : ℕ) : ℚ) + ((1 : ℕ) : ℚ)) ∧
      fscoreOf 3 1 1 = ((3 : ℕ) : ℚ) / (((3 : ℕ) : ℚ) + ((1 : ℕ) : ℚ))) :=
  ⟨C10_fp_eq_fn.1 exOracle "a" randKeep ["x.jpg"] 0 countersInit []
      ⟨1, 0, 1, 1⟩ [⟨"x.jpg", "b", 9/10, "a", 1/10, 9⟩] 1 rfl ex_imagesLoop,
   C10_fp_eq_fn.2 3 1 1 rfl (by norm_num)⟩

end GetPredictions
